import Mathlib

/-!
Shallow embedding of the calibration engine in `src/calibrator.c` and proofs
of the specified properties: the Best-K register (`calibrate_best_sequential`,
`calibrate_best_thread`), the two-level work partitioner of `calibrate_new`,
the Sweep and Monte-Carlo population strategies, the mixed-radix enumeration,
the cross-rank merge (`calibrate_merge`), and the trial-score extraction of
`calibrate_parse`.  Machine doubles are modelled by exact rationals (only
comparisons and field arithmetic on scores matter to the properties below);
unsigned C integers are modelled by naturals (no subtraction below ever
underflows on the reachable inputs, matching unsigned semantics).
-/

namespace Calibrator

/-- An entry of the Best-K register: a simulation index paired with its error
(the parallel arrays `simulation_best` / `error_best` zipped). -/
abbrev Entry := ℕ × ℚ

/-- The bubble loop of `calibrate_best_sequential` (calibrator.c lines
403-416) seen from the tail of the register: the list argument is the
register prefix reversed (worst-scored entry first), and the freshly written
entry `x` swaps leftwards past each neighbour whose error is strictly
larger. -/
def bubbleIn (x : Entry) : List Entry → List Entry
  | [] => [x]
  | y :: ys => if x.2 < y.2 then y :: bubbleIn x ys else x :: y :: ys

/-- Writing entry `x` at position `nsaveds - 1` just past the prefix `l` and
running the bubble loop, as `calibrate_best_sequential` does after its guard
succeeded. -/
def place (l : List Entry) (x : Entry) : List Entry :=
  (bubbleIn x l.reverse).reverse

/-- The score read by the fast-path guard: `error_best[nsaveds - 1]`.  For an
empty register the C code never evaluates this operand (short-circuit `||`
with `nsaveds < nbests` and `nbests >= 1`); the default is irrelevant. -/
def worstScore (l : List Entry) : ℚ := (l.getLastD (0, 0)).2

/-- The function `calibrate_best_sequential` (calibrator.c lines 389-421):
insert if there is room or the value beats the worst held entry; on a full
register the worst entry is overwritten; then bubble leftwards. -/
def calibrate_best_sequential (nbests : ℕ) (l : List Entry)
    (simulation : ℕ) (value : ℚ) : List Entry :=
  if l.length < nbests ∨ value < worstScore l then
    if l.length < nbests then place l (simulation, value)
    else place l.dropLast (simulation, value)
  else l

/-- The function `calibrate_best_thread` (calibrator.c lines 342-376): the
same algorithm as `calibrate_best_sequential`; the mutex acquire/release
around the mutation has no effect on the register contents and is elided by
the sequential embedding. -/
def calibrate_best_thread (nbests : ℕ) (l : List Entry)
    (simulation : ℕ) (value : ℚ) : List Entry :=
  if l.length < nbests ∨ value < worstScore l then
    if l.length < nbests then place l (simulation, value)
    else place l.dropLast (simulation, value)
  else l

/-- Folding a sequence of offers `(simulation, error)` through the register,
starting from the empty register (`nsaveds = 0`, line 751). -/
def offerAll (nbests : ℕ) (offers : List Entry) : List Entry :=
  offers.foldl (fun l p => calibrate_best_sequential nbests l p.1 p.2) []

/-- The multiset of scores held by a register state. -/
def scores (l : List Entry) : Multiset ℚ := (l.map Prod.snd : List ℚ)

/-- The register is sorted ascending by error. -/
def SortedAsc (l : List Entry) : Prop := l.Pairwise (fun a b => a.2 ≤ b.2)

/-- `S` is a lowest sub-multiset of `T`: it is contained in `T` and every
score of `S` is at most every score that `T` has strictly more copies of
than `S` (i.e. every offered score that is not held). -/
def IsLowestOf (S T : Multiset ℚ) : Prop :=
  S ≤ T ∧ ∀ x ∈ S, ∀ y : ℚ, S.count y < T.count y → x ≤ y

/-- Rank window start, `calibrate_new` lines 966-967:
`nstart = mpi_rank * nsimulations / mpi_tasks`. -/
def rank_nstart (rank nsimulations ntasks : ℕ) : ℕ :=
  rank * nsimulations / ntasks

/-- Rank window end, `calibrate_new` lines 968-969:
`nend = (1 + mpi_rank) * nsimulations / mpi_tasks`. -/
def rank_nend (rank nsimulations ntasks : ℕ) : ℕ :=
  (1 + rank) * nsimulations / ntasks

/-- Worker bound, `calibrate_new` lines 982-984:
`thread[i] = nstart + i * (nend - nstart) / nthreads`. -/
def thread_bound (nstart nend nthreads i : ℕ) : ℕ :=
  nstart + i * (nend - nstart) / nthreads

/-- One calibration variable: the entries of the parallel arrays `rangemin`,
`rangemax` and `nsweeps` for one index. -/
structure Var where
  rangemin : ℚ
  rangemax : ℚ
  nsweeps : ℕ
  deriving DecidableEq

/-- The inner loop of `calibrate_sweep` (calibrator.c lines 506-516) for one
candidate: processing the variables left to right while dividing the running
index `k` by each sweep count; emits the value stored at
`value[i * nvariables + j]` for each variable in order. -/
def sweepRowGo : List Var → ℕ → List ℚ
  | [], _ => []
  | v :: rest, k =>
    (if 1 < v.nsweeps then
        v.rangemin
          + ((k % v.nsweeps : ℕ) : ℚ) * (v.rangemax - v.rangemin)
            / ((v.nsweeps - 1 : ℕ) : ℚ)
      else v.rangemin)
      :: sweepRowGo rest (k / v.nsweeps)

/-- The value `value[i * nvariables + j]` populated by `calibrate_sweep` for
candidate `i` and variable `j`. -/
def calibrate_sweep_value (vars : List Var) (i j : ℕ) : ℚ :=
  (sweepRowGo vars i).getD j 0

/-- Product of the sweep counts of the first `j` variables, the divisor
accumulated by the repeated `k /= nsweeps[j]` of the sweep loop. -/
def prodBefore (vars : List Var) (j : ℕ) : ℕ :=
  ((vars.take j).map Var.nsweeps).prod

/-- The value generated by `calibrate_MonteCarlo` (calibrator.c lines
549-553) from one uniform draw `u` of `gsl_rng_uniform` (which lies in
`[0, 1)`). -/
def calibrate_MonteCarlo_value (rangemin rangemax u : ℚ) : ℚ :=
  rangemin + u * (rangemax - rangemin)

/-- The digit-extraction loop of `calibrate_sweep` (lines 509-510):
`l = k % nsweeps[j]; k /= nsweeps[j]`, collected over the radices. -/
def sweepDigits : List ℕ → ℕ → List ℕ
  | [], _ => []
  | s :: rest, k => k % s :: sweepDigits rest (k / s)

/-- The accumulation of `nsimulations` for the Sweep algorithm
(`calibrate_new` lines 866-867 and 942-943): start at 1 and multiply by each
variable's sweep count in order. -/
def sweep_nsimulations (radices : List ℕ) : ℕ :=
  radices.foldl (· * ·) 1

/-- Candidate indices trialled by `calibrate_sequential` (calibrator.c lines
474-483): the loop runs `i = 0 .. nsimulations - 1`, ignoring the rank
window `[nstart, nend)`. -/
def calibrate_sequential_trials (nsimulations : ℕ) : List ℕ :=
  List.range nsimulations

/-- Candidate indices trialled by the post-population phase of
`calibrate_sweep` / `calibrate_MonteCarlo` (lines 518-529 and 554-565):
sequential when `nthreads <= 1`, otherwise the concatenation of the worker
windows `[bound w, bound (w+1))`. -/
def post_population_trials (nthreads nsimulations : ℕ) (bound : ℕ → ℕ) :
    List ℕ :=
  if nthreads ≤ 1 then calibrate_sequential_trials nsimulations
  else (List.range nthreads).flatMap
    (fun w => List.range' (bound w) (bound (w + 1) - bound w))

/-- Parsing of the `iterations` attribute (`calibrate_new` lines 716-728):
rejected when present and zero, defaulted to 1 when absent. -/
def parse_niterations : Option ℕ → Option ℕ
  | some 0 => none
  | some k => some k
  | none => some 1

/-- Number of population/trial phases the coordinator executes
(`calibrate_new` lines 986-1002): the algorithm dispatch `switch` is run
exactly once; no loop over `niterations` exists in `calibrate_new`. -/
def coordinator_phases (_niterations : ℕ) : ℕ := 1

/-- Score extraction of `calibrate_parse` (calibrator.c lines 312-313): the
first line of the result file is fed to `atof`, which yields `0` when the
line does not parse as a number.  (A missing result file makes `fopen`
return NULL and `fgets` on a NULL stream is undefined behaviour; only the
present-but-unparsable case is modelled.) -/
def calibrate_parse_score : Option ℚ → ℚ
  | some x => x
  | none => 0

/-- A pair of parallel buffers as passed to `calibrate_merge`: total
functions, since the C code can read cells beyond the valid prefix
`[0, nsaveds)` (those cells hold whatever stale values the stack had). -/
structure MergeBuf where
  sim : ℕ → ℕ
  err : ℕ → ℚ

/-- The do-while loop of `calibrate_merge` (calibrator.c lines 587-604),
with fuel: each recursive step is one loop iteration (the body always
appends one entry, then the guard `k < nbests && (i < nsaveds_A || j <
nsaveds_B)` decides continuation with the updated indices).  `A` is the
root's register (`calibrate->simulation_best/error_best`), `B` the received
buffers; the branch condition is the literal
`i > calibrate->nsaveds || calibrate->error_best[i] > error_best[j]`. -/
def calibrate_merge_go (nbests nsA nsB : ℕ) (A B : MergeBuf) :
    ℕ → ℕ → ℕ → ℕ → List Entry → List Entry
  | 0, _, _, _, acc => acc
  | fuel + 1, i, j, k, acc =>
    if nsA < i ∨ B.err j < A.err i then
      if k + 1 < nbests ∧ (i < nsA ∨ j + 1 < nsB) then
        calibrate_merge_go nbests nsA nsB A B fuel i (j + 1) (k + 1)
          (acc ++ [(B.sim j, B.err j)])
      else acc ++ [(B.sim j, B.err j)]
    else
      if k + 1 < nbests ∧ (i + 1 < nsA ∨ j < nsB) then
        calibrate_merge_go nbests nsA nsB A B fuel (i + 1) j (k + 1)
          (acc ++ [(A.sim i, A.err i)])
      else acc ++ [(A.sim i, A.err i)]

/-- The function `calibrate_merge` (calibrator.c lines 581-611).  The loop
index `k` grows by one per iteration and continuation requires
`k + 1 < nbests`, so `nbests + 1` units of fuel always cover the do-while
(the body runs at least once even when both lists are empty, faithfully to
the do-while). -/
def calibrate_merge (nbests nsA nsB : ℕ) (A B : MergeBuf) : List Entry :=
  calibrate_merge_go nbests nsA nsB A B (nbests + 1) 0 0 0 []

/-- The entries actually held by a merge buffer with `ns` saved entries. -/
def register_entries (ns : ℕ) (M : MergeBuf) : List Entry :=
  (List.range ns).map (fun t => (M.sim t, M.err t))

/-- Concrete root register for the merge counterexample: one entry
`(simulation 0, error 2)`. -/
def mergeA : MergeBuf := ⟨fun _ => 0, fun _ => 2⟩

/-- Concrete received buffers for the merge counterexample: zero valid
entries; the stale cell contents are `(simulation 7, error 1)`. -/
def mergeB : MergeBuf := ⟨fun _ => 7, fun _ => 1⟩

theorem bubbleIn_length (x : Entry) (l : List Entry) :
    (bubbleIn x l).length = l.length + 1 := by
  induction l with
  | nil => rfl
  | cons y ys ih =>
    simp only [bubbleIn]
    split <;> simp [ih]

theorem bubbleIn_perm (x : Entry) (l : List Entry) :
    (bubbleIn x l).Perm (x :: l) := by
  induction l with
  | nil => exact List.Perm.refl _
  | cons y ys ih =>
    simp only [bubbleIn]
    split
    · exact (ih.cons y).trans (List.Perm.swap x y ys)
    · exact List.Perm.refl _

theorem bubbleIn_sorted (x : Entry) (l : List Entry)
    (h : l.Pairwise (fun a b => b.2 ≤ a.2)) :
    (bubbleIn x l).Pairwise (fun a b => b.2 ≤ a.2) := by
  induction l with
  | nil => simp [bubbleIn]
  | cons y ys ih =>
    rcases List.pairwise_cons.1 h with ⟨hy, hys⟩
    simp only [bubbleIn]
    split
    · rename_i hlt
      refine List.pairwise_cons.2 ⟨?_, ih hys⟩
      intro z hz
      rcases List.mem_cons.1 ((bubbleIn_perm x ys).mem_iff.1 hz) with rfl | hz'
      · exact le_of_lt hlt
      · exact hy z hz'
    · rename_i hge
      push_neg at hge
      refine List.pairwise_cons.2 ⟨?_, h⟩
      intro z hz
      rcases List.mem_cons.1 hz with rfl | hz'
      · exact hge
      · exact le_trans (hy z hz') hge

theorem place_length (l : List Entry) (x : Entry) :
    (place l x).length = l.length + 1 := by
  simp [place, bubbleIn_length]

theorem place_perm (l : List Entry) (x : Entry) :
    (place l x).Perm (x :: l) :=
  ((bubbleIn x l.reverse).reverse_perm.trans (bubbleIn_perm x l.reverse)).trans
    ((l.reverse_perm).cons x)

theorem place_scores (l : List Entry) (x : Entry) :
    scores (place l x) = x.2 ::ₘ scores l := by
  have h : ((place l x).map Prod.snd).Perm ((x :: l).map Prod.snd) :=
    (place_perm l x).map Prod.snd
  simpa [scores] using Multiset.coe_eq_coe.2 h

theorem place_sorted (l : List Entry) (x : Entry) (h : SortedAsc l) :
    SortedAsc (place l x) := by
  have h1 : l.reverse.Pairwise (fun a b => b.2 ≤ a.2) :=
    List.pairwise_reverse.2 h
  exact List.pairwise_reverse.2 (bubbleIn_sorted x l.reverse h1)

theorem worstScore_concat (l : List Entry) (x : Entry) :
    worstScore (l ++ [x]) = x.2 := by
  simp [worstScore]

theorem scores_le_worst (l : List Entry) (h : SortedAsc l) (hne : l ≠ []) :
    ∀ x ∈ scores l, x ≤ worstScore l := by
  obtain ⟨l', y, rfl⟩ : ∃ l' y, l = l' ++ [y] :=
    ⟨l.dropLast, l.getLast hne, (List.dropLast_append_getLast hne).symm⟩
  intro x hx
  rw [worstScore_concat]
  have hx' : x ∈ (l' ++ [y]).map Prod.snd := by simpa [scores] using hx
  rcases List.mem_map.1 hx' with ⟨p, hp, rfl⟩
  rcases List.mem_append.1 hp with hp' | hp'
  · exact (List.pairwise_append.1 h).2.2 p hp' y (List.mem_singleton_self y)
  · rw [List.mem_singleton.1 hp']

theorem scores_eq_worst_cons (l : List Entry) (hne : l ≠ []) :
    scores l = worstScore l ::ₘ scores l.dropLast := by
  conv_lhs => rw [← List.dropLast_append_getLast hne]
  have h2 : worstScore l = (l.getLast hne).2 := by
    conv_lhs => rw [← List.dropLast_append_getLast hne]
    exact worstScore_concat _ _
  rw [h2]
  simp [scores]

/-- Invariant of the register after the scores in `T` have been offered. -/
def Good (nbests : ℕ) (l : List Entry) (T : Multiset ℚ) : Prop :=
  SortedAsc l ∧ l.length = min nbests (Multiset.card T) ∧
  IsLowestOf (scores l) T

theorem good_nil (nbests : ℕ) : Good nbests [] 0 := by
  refine ⟨List.Pairwise.nil, by simp, le_refl _, ?_⟩
  intro x hx
  simp [scores] at hx

theorem card_scores (l : List Entry) : Multiset.card (scores l) = l.length := by
  simp [scores]

theorem good_step (nbests : ℕ) (hb : 1 ≤ nbests) {l : List Entry}
    {T : Multiset ℚ} (hg : Good nbests l T) (s : ℕ) (v : ℚ) :
    Good nbests (calibrate_best_sequential nbests l s v) (v ::ₘ T) := by
  obtain ⟨hsort, hlen, hsub, hlow⟩ := hg
  have hcS : Multiset.card (scores l) = l.length := card_scores l
  by_cases h1 : l.length < nbests
  · -- room left: the entry is appended and bubbled in
    have hstep : calibrate_best_sequential nbests l s v = place l (s, v) := by
      simp [calibrate_best_sequential, h1]
    have hcard : l.length = Multiset.card T := by omega
    have hST : scores l = T :=
      Multiset.eq_of_le_of_card_le hsub (by omega)
    refine ⟨?_, ?_, ?_, ?_⟩
    · rw [hstep]; exact place_sorted l _ hsort
    · rw [hstep, place_length, Multiset.card_cons]; omega
    · rw [hstep, place_scores, hST]
    · intro x _ y hy
      rw [hstep, place_scores, hST] at hy
      exact absurd hy (lt_irrefl _)
  · -- full register
    have hfull : l.length = nbests := by omega
    have hne : l ≠ [] := by
      intro h
      rw [h] at hfull
      simp at hfull
      omega
    have hTcard : nbests ≤ Multiset.card T := by
      have := Multiset.card_le_card hsub
      omega
    have hwS : worstScore l ∈ scores l := by
      rw [scores_eq_worst_cons l hne]
      exact Multiset.mem_cons_self _ _
    by_cases h2 : v < worstScore l
    · -- beat the worst: it is overwritten and the entry bubbled in
      have hstep : calibrate_best_sequential nbests l s v
          = place l.dropLast (s, v) := by
        simp [calibrate_best_sequential, h1, h2]
      have hdecomp := scores_eq_worst_cons l hne
      have hdsort : SortedAsc l.dropLast :=
        List.Pairwise.sublist (List.dropLast_sublist l) hsort
      have hdsub : scores l.dropLast ≤ T :=
        le_trans (by rw [hdecomp]; exact Multiset.le_cons_self _ _) hsub
      refine ⟨?_, ?_, ?_, ?_⟩
      · rw [hstep]; exact place_sorted _ _ hdsort
      · rw [hstep, place_length, List.length_dropLast, Multiset.card_cons]
        omega
      · rw [hstep, place_scores]
        exact Multiset.cons_le_cons v hdsub
      · intro x hx y hy
        rw [hstep, place_scores] at hx hy
        have hxv : x ∈ v ::ₘ scores l.dropLast := hx
        have hyc : Multiset.count y (v ::ₘ scores l.dropLast)
            < Multiset.count y (v ::ₘ T) := hy
        rw [Multiset.count_cons, Multiset.count_cons] at hyc
        have hy0 : Multiset.count y (scores l.dropLast)
            < Multiset.count y T := by omega
        have hcount : Multiset.count y (scores l)
            = Multiset.count y (scores l.dropLast)
              + if y = worstScore l then 1 else 0 := by
          rw [hdecomp, Multiset.count_cons]
        rcases Multiset.mem_cons.1 hxv with rfl | hx'
        · -- the new entry: below the old worst, hence below every loser
          by_cases hyw : y = worstScore l
          · rw [hyw]; exact le_of_lt h2
          · rw [if_neg hyw] at hcount
            have hw_le : worstScore l ≤ y := hlow (worstScore l) hwS y (by omega)
            exact le_trans (le_of_lt h2) hw_le
        · -- an old entry of the shortened register
          have hxS : x ∈ scores l := by
            rw [hdecomp]
            exact Multiset.mem_cons_of_mem hx'
          rcases lt_or_le (Multiset.count y (scores l))
              (Multiset.count y T) with hc | hc
          · exact hlow x hxS y hc
          · have hyw : y = worstScore l := by
              by_contra hyw
              rw [if_neg hyw] at hcount
              omega
            rw [hyw]
            exact scores_le_worst l hsort hne x hxS
    · -- rejected offer: the register is unchanged
      have hstep : calibrate_best_sequential nbests l s v = l := by
        simp [calibrate_best_sequential, h1, h2]
      have hwv : worstScore l ≤ v := le_of_not_lt h2
      refine ⟨?_, ?_, ?_, ?_⟩
      · rw [hstep]; exact hsort
      · rw [hstep, Multiset.card_cons]; omega
      · rw [hstep]
        exact le_trans hsub (Multiset.le_cons_self T v)
      · intro x hx y hy
        rw [hstep] at hx hy
        rw [Multiset.count_cons] at hy
        by_cases hyv : y = v
        · rcases lt_or_le (Multiset.count y (scores l))
              (Multiset.count y T) with hc | hc
          · exact hlow x hx y hc
          · rw [hyv]
            exact le_trans (scores_le_worst l hsort hne x hx) hwv
        · rw [if_neg hyv] at hy
          exact hlow x hx y (by omega)

theorem offerAll_good (nbests : ℕ) (hb : 1 ≤ nbests) (offers : List Entry) :
    Good nbests (offerAll nbests offers) ↑(offers.map Prod.snd) := by
  suffices aux : ∀ (os : List Entry) (l : List Entry) (T : Multiset ℚ),
      Good nbests l T →
      Good nbests
        (os.foldl (fun l p => calibrate_best_sequential nbests l p.1 p.2) l)
        (T + ↑(os.map Prod.snd)) by
    simpa [offerAll] using aux offers [] 0 (good_nil nbests)
  intro os
  induction os with
  | nil => intro l T h; simpa using h
  | cons p rest ih =>
    intro l T h
    have h2 := ih _ _ (good_step nbests hb h p.1 p.2)
    simpa [← Multiset.cons_coe, Multiset.cons_add, Multiset.add_cons] using h2

theorem step_changes_iff (nbests : ℕ) (hb : 1 ≤ nbests) (l : List Entry)
    (s : ℕ) (v : ℚ) :
    calibrate_best_sequential nbests l s v ≠ l
      ↔ (l.length < nbests ∨ v < worstScore l) := by
  constructor
  · intro hne
    by_contra hc
    exact hne (by simp [calibrate_best_sequential, hc])
  · intro hcond
    by_cases h1 : l.length < nbests
    · have hstep : calibrate_best_sequential nbests l s v = place l (s, v) := by
        simp [calibrate_best_sequential, h1]
      intro heq
      have := congrArg List.length heq
      rw [hstep, place_length] at this
      omega
    · have h2 : v < worstScore l := hcond.resolve_left h1
      have hpos : 0 < l.length := by omega
      have hne : l ≠ [] := by
        intro h; rw [h] at hpos; simp at hpos
      have hstep : calibrate_best_sequential nbests l s v
          = place l.dropLast (s, v) := by
        simp [calibrate_best_sequential, h1, h2]
      intro heq
      have hsc : scores l = v ::ₘ scores l.dropLast := by
        have h0 := place_scores l.dropLast (s, v)
        rw [← hstep, heq] at h0
        exact h0
      have hsc2 : scores l = worstScore l ::ₘ scores l.dropLast :=
        scores_eq_worst_cons l hne
      have hvw : v ≠ worstScore l := ne_of_lt h2
      have hc1 : Multiset.count v (scores l)
          = Multiset.count v (scores l.dropLast) + 1 := by
        rw [hsc, Multiset.count_cons]; simp
      have hc2 : Multiset.count v (scores l)
          = Multiset.count v (scores l.dropLast) := by
        rw [hsc2, Multiset.count_cons]; simp [hvw]
      omega

/-- Claim C1.  Best-K register postcondition: for every sequence of offers
`(candidate_index, score)` folded through `calibrate_best_sequential` with
`nbests >= 1`, the next offer changes the register iff fewer than `nbests`
entries are held or its score beats (strict `<`) the worst currently held;
the register holds `nsaveds = min nbests (number of offers) <= nbests`
entries; `error_best[0..nsaveds)` is sorted ascending; the held scores are
the `nsaveds` lowest scores offered so far (a sub-multiset of the offered
scores, each held score at most every non-held offered score); and on an
equal score the later offer does not displace the earlier (a full register
rejects an offer tying the worst held score). -/
theorem bestK_register_postcondition (nbests : ℕ) (offers : List Entry)
    (hb : 1 ≤ nbests) :
    (offerAll nbests offers).length ≤ nbests ∧
    (offerAll nbests offers).length = min nbests offers.length ∧
    SortedAsc (offerAll nbests offers) ∧
    IsLowestOf (scores (offerAll nbests offers)) ↑(offers.map Prod.snd) ∧
    (∀ s v, calibrate_best_sequential nbests (offerAll nbests offers) s v
        ≠ offerAll nbests offers
      ↔ ((offerAll nbests offers).length < nbests
          ∨ v < worstScore (offerAll nbests offers))) ∧
    (∀ s v, (offerAll nbests offers).length = nbests →
      v = worstScore (offerAll nbests offers) →
      calibrate_best_sequential nbests (offerAll nbests offers) s v
        = offerAll nbests offers) := by
  obtain ⟨hsort, hlen, hlow⟩ := offerAll_good nbests hb offers
  have hcard : Multiset.card (↑(offers.map Prod.snd) : Multiset ℚ)
      = offers.length := by simp
  rw [hcard] at hlen
  refine ⟨by omega, hlen, hsort, hlow, ?_, ?_⟩
  · intro s v
    exact step_changes_iff nbests hb (offerAll nbests offers) s v
  · intro s v hfull hv
    have h1 : ¬ (offerAll nbests offers).length < nbests := by omega
    have h2 : ¬ v < worstScore (offerAll nbests offers) := by
      rw [hv]
      exact lt_irrefl _
    simp [calibrate_best_sequential, h1, h2]

theorem bestK_register_postcondition_witness :
    1 ≤ 2 ∧ SortedAsc (offerAll 2 [(0, 5), (1, 3), (2, 4)]) :=
  ⟨by decide,
    (bestK_register_postcondition 2 [(0, 5), (1, 3), (2, 4)] (by decide)).2.2.1⟩

/-- Claim C10.  Frame property of rejected offers: if the register is full
(`nsaveds = nbests >= 1`) and the offered score is at least
`error_best[nsaveds - 1]`, then both `calibrate_best_sequential` and
`calibrate_best_thread` leave the register (its count and every held
`simulation_best`/`error_best` entry) completely unchanged. -/
theorem rejected_offer_frame (nbests : ℕ) (l : List Entry) (s : ℕ) (v : ℚ)
    (_hb : 1 ≤ nbests) (hfull : l.length = nbests)
    (hge : worstScore l ≤ v) :
    calibrate_best_sequential nbests l s v = l ∧
    calibrate_best_thread nbests l s v = l := by
  have h1 : ¬ l.length < nbests := by omega
  have h2 : ¬ v < worstScore l := not_lt.2 hge
  constructor
  · simp [calibrate_best_sequential, h1, h2]
  · simp [calibrate_best_thread, h1, h2]

theorem rejected_offer_frame_witness :
    (1 ≤ 1 ∧ ([((3 : ℕ), (1 : ℚ))]).length = 1
      ∧ worstScore [(3, 1)] ≤ 1) ∧
    calibrate_best_sequential 1 [(3, 1)] 9 1 = [(3, 1)] ∧
    calibrate_best_thread 1 [(3, 1)] 9 1 = [(3, 1)] :=
  ⟨⟨by decide, by decide, by decide⟩,
    rejected_offer_frame 1 [(3, 1)] 9 1 (by decide) (by decide) (by decide)⟩

theorem mono_of_step {g : ℕ → ℕ} (h : ∀ i, g i ≤ g (i + 1)) :
    ∀ a b, a ≤ b → g a ≤ g b := by
  intro a b hab
  induction b with
  | zero =>
    have ha : a = 0 := Nat.le_zero.1 hab
    rw [ha]
  | succ n ih =>
    rcases Nat.eq_or_lt_of_le hab with rfl | hlt
    · exact le_refl _
    · exact le_trans (ih (Nat.lt_succ_iff.1 hlt)) (h n)

theorem sum_window_sizes {g : ℕ → ℕ} (h : ∀ i, g i ≤ g (i + 1)) (m : ℕ) :
    ∑ i ∈ Finset.range m, (g (i + 1) - g i) = g m - g 0 := by
  induction m with
  | zero => simp
  | succ n ih =>
    rw [Finset.sum_range_succ, ih]
    have h1 : g 0 ≤ g n := mono_of_step h 0 n (Nat.zero_le n)
    have h2 : g n ≤ g (n + 1) := h n
    omega

theorem window_cover {g : ℕ → ℕ} (m x : ℕ)
    (hxm : x < g m) (hx0 : g 0 ≤ x) :
    ∃ i, i < m ∧ g i ≤ x ∧ x < g (i + 1) := by
  induction m with
  | zero => omega
  | succ n ih =>
    by_cases hn : g n ≤ x
    · exact ⟨n, Nat.lt_succ_self n, hn, hxm⟩
    · obtain ⟨i, hi, h1, h2⟩ := ih (by omega)
      exact ⟨i, by omega, h1, h2⟩

theorem window_disjoint {g : ℕ → ℕ} (h : ∀ i, g i ≤ g (i + 1)) :
    ∀ i i' x, i < i' → g i ≤ x → x < g (i + 1) →
      ¬ (g i' ≤ x ∧ x < g (i' + 1)) := by
  intro i i' x hii _ hxi hmem
  have hle : g (i + 1) ≤ g i' := mono_of_step h _ _ hii
  omega

theorem div_add_div_le (a b c : ℕ) : a / c + b / c ≤ (a + b) / c := by
  rcases Nat.eq_zero_or_pos c with rfl | hc
  · simp
  · rw [Nat.le_div_iff_mul_le hc, Nat.add_mul]
    exact Nat.add_le_add (Nat.div_mul_le_self a c) (Nat.div_mul_le_self b c)

theorem rank_nstart_step (r nsim ntasks : ℕ) :
    rank_nstart r nsim ntasks ≤ rank_nstart (r + 1) nsim ntasks :=
  Nat.div_le_div_right (Nat.mul_le_mul_right nsim (Nat.le_succ r))

theorem rank_nend_eq (r nsim ntasks : ℕ) :
    rank_nend r nsim ntasks = rank_nstart (r + 1) nsim ntasks := by
  unfold rank_nend rank_nstart
  rw [Nat.add_comm]

theorem rank_nstart_zero (nsim ntasks : ℕ) : rank_nstart 0 nsim ntasks = 0 := by
  simp [rank_nstart]

theorem rank_nstart_top (nsim ntasks : ℕ) (h : 1 ≤ ntasks) :
    rank_nstart ntasks nsim ntasks = nsim := by
  unfold rank_nstart
  exact Nat.mul_div_cancel_left nsim h

theorem thread_bound_step (a b W w : ℕ) :
    thread_bound a b W w ≤ thread_bound a b W (w + 1) :=
  Nat.add_le_add_left
    (Nat.div_le_div_right (Nat.mul_le_mul_right (b - a) (Nat.le_succ w))) a

theorem thread_bound_zero (a b W : ℕ) : thread_bound a b W 0 = a := by
  simp [thread_bound]

theorem thread_bound_top (a b W : ℕ) (hW : 1 ≤ W) (hab : a ≤ b) :
    thread_bound a b W W = b := by
  unfold thread_bound
  rw [Nat.mul_div_cancel_left _ hW]
  omega

/-- Claim C2.  Two-level partition correctness: for every `nsimulations`,
rank count `R >= 1` and worker count `W >= 1`, the rank windows
`[r*nsim/R, (r+1)*nsim/R)` are pairwise disjoint with union `[0, nsim)`;
within a rank the worker windows `[thread_bound w, thread_bound (w+1))` are
pairwise disjoint with union `[nstart, nend)`; the sum of all window sizes
equals `nsimulations`; and the last rank/worker window ends exactly at the
partitioned range's end and its size is at least the integer-division
quotient (it absorbs the remainder left at the final boundary). -/
theorem partition_two_level (nsim R W : ℕ) (hR : 1 ≤ R) (hW : 1 ≤ W) :
    (∀ r r' x, r < R → r' < R → r ≠ r' →
      rank_nstart r nsim R ≤ x → x < rank_nend r nsim R →
      ¬ (rank_nstart r' nsim R ≤ x ∧ x < rank_nend r' nsim R)) ∧
    (∀ x, x < nsim ↔
      ∃ r, r < R ∧ rank_nstart r nsim R ≤ x ∧ x < rank_nend r nsim R) ∧
    (∀ r, r < R →
      (∀ w w' x, w < W → w' < W → w ≠ w' →
        thread_bound (rank_nstart r nsim R) (rank_nend r nsim R) W w ≤ x →
        x < thread_bound (rank_nstart r nsim R) (rank_nend r nsim R) W (w + 1) →
        ¬ (thread_bound (rank_nstart r nsim R) (rank_nend r nsim R) W w' ≤ x ∧
          x < thread_bound (rank_nstart r nsim R) (rank_nend r nsim R) W (w' + 1))) ∧
      (∀ x, (rank_nstart r nsim R ≤ x ∧ x < rank_nend r nsim R) ↔
        ∃ w, w < W ∧
          thread_bound (rank_nstart r nsim R) (rank_nend r nsim R) W w ≤ x ∧
          x < thread_bound (rank_nstart r nsim R) (rank_nend r nsim R) W (w + 1))) ∧
    (∑ r ∈ Finset.range R, ∑ w ∈ Finset.range W,
      (thread_bound (rank_nstart r nsim R) (rank_nend r nsim R) W (w + 1)
        - thread_bound (rank_nstart r nsim R) (rank_nend r nsim R) W w)
      = nsim) ∧
    (rank_nend (R - 1) nsim R = nsim ∧
      nsim / R ≤ rank_nend (R - 1) nsim R - rank_nstart (R - 1) nsim R) ∧
    (∀ r, r < R →
      thread_bound (rank_nstart r nsim R) (rank_nend r nsim R) W W
        = rank_nend r nsim R ∧
      (rank_nend r nsim R - rank_nstart r nsim R) / W ≤
        thread_bound (rank_nstart r nsim R) (rank_nend r nsim R) W W
          - thread_bound (rank_nstart r nsim R) (rank_nend r nsim R) W (W - 1)) := by
  have hfstep : ∀ i, rank_nstart i nsim R ≤ rank_nstart (i + 1) nsim R :=
    fun i => rank_nstart_step i nsim R
  have hf0 : rank_nstart 0 nsim R = 0 := rank_nstart_zero nsim R
  have hfR : rank_nstart R nsim R = nsim := rank_nstart_top nsim R hR
  have hab : ∀ r, rank_nstart r nsim R ≤ rank_nend r nsim R := by
    intro r
    rw [rank_nend_eq]
    exact hfstep r
  have hgstep : ∀ r w,
      thread_bound (rank_nstart r nsim R) (rank_nend r nsim R) W w
        ≤ thread_bound (rank_nstart r nsim R) (rank_nend r nsim R) W (w + 1) :=
    fun r w => thread_bound_step _ _ _ _
  have hg0 : ∀ r, thread_bound (rank_nstart r nsim R) (rank_nend r nsim R) W 0
      = rank_nstart r nsim R := fun r => thread_bound_zero _ _ _
  have hgW : ∀ r, thread_bound (rank_nstart r nsim R) (rank_nend r nsim R) W W
      = rank_nend r nsim R := fun r => thread_bound_top _ _ _ hW (hab r)
  have hnend_le : ∀ r, r < R → rank_nend r nsim R ≤ nsim := by
    intro r hr
    rw [rank_nend_eq]
    have h3 : rank_nstart (r + 1) nsim R ≤ rank_nstart R nsim R :=
      @mono_of_step (fun i => rank_nstart i nsim R) hfstep (r + 1) R hr
    omega
  refine ⟨?_, ?_, ?_, ?_, ?_, ?_⟩
  · -- rank windows pairwise disjoint
    intro r r' x hr hr' hrr h1 h2
    rintro ⟨h1', h2'⟩
    rw [rank_nend_eq] at h2
    rw [rank_nend_eq] at h2'
    rcases Nat.lt_or_ge r r' with hlt | hge
    · exact @window_disjoint (fun i => rank_nstart i nsim R) hfstep
        r r' x hlt h1 h2 ⟨h1', h2'⟩
    · have hlt' : r' < r := by omega
      exact @window_disjoint (fun i => rank_nstart i nsim R) hfstep
        r' r x hlt' h1' h2' ⟨h1, h2⟩
  · -- rank windows cover [0, nsim)
    intro x
    constructor
    · intro hx
      have hxm : x < rank_nstart R nsim R := by omega
      have hx0 : rank_nstart 0 nsim R ≤ x := by omega
      obtain ⟨r, hr, ha, hb⟩ :=
        @window_cover (fun i => rank_nstart i nsim R) R x hxm hx0
      exact ⟨r, hr, ha, by rw [rank_nend_eq]; exact hb⟩
    · rintro ⟨r, hr, _, hb⟩
      have := hnend_le r hr
      omega
  · -- within one rank
    intro r hr
    constructor
    · intro w w' x hw hw' hww h1 h2
      rintro ⟨h1', h2'⟩
      rcases Nat.lt_or_ge w w' with hlt | hge
      · exact @window_disjoint
          (fun i => thread_bound (rank_nstart r nsim R) (rank_nend r nsim R) W i)
          (hgstep r) w w' x hlt h1 h2 ⟨h1', h2'⟩
      · have hlt' : w' < w := by omega
        exact @window_disjoint
          (fun i => thread_bound (rank_nstart r nsim R) (rank_nend r nsim R) W i)
          (hgstep r) w' w x hlt' h1' h2' ⟨h1, h2⟩
    · intro x
      constructor
      · rintro ⟨hax, hxb⟩
        have hxm : x < thread_bound (rank_nstart r nsim R)
            (rank_nend r nsim R) W W := by
          rw [hgW r]
          exact hxb
        have hx0 : thread_bound (rank_nstart r nsim R)
            (rank_nend r nsim R) W 0 ≤ x := by
          rw [hg0 r]
          exact hax
        exact @window_cover
          (fun i => thread_bound (rank_nstart r nsim R) (rank_nend r nsim R) W i)
          W x hxm hx0
      · rintro ⟨w, hw, h1, h2⟩
        have hm0 : thread_bound (rank_nstart r nsim R) (rank_nend r nsim R) W 0
            ≤ thread_bound (rank_nstart r nsim R) (rank_nend r nsim R) W w :=
          @mono_of_step
            (fun i => thread_bound (rank_nstart r nsim R) (rank_nend r nsim R) W i)
            (hgstep r) 0 w (Nat.zero_le w)
        rw [hg0 r] at hm0
        have hmW : thread_bound (rank_nstart r nsim R) (rank_nend r nsim R) W (w + 1)
            ≤ thread_bound (rank_nstart r nsim R) (rank_nend r nsim R) W W :=
          @mono_of_step
            (fun i => thread_bound (rank_nstart r nsim R) (rank_nend r nsim R) W i)
            (hgstep r) (w + 1) W hw
        rw [hgW r] at hmW
        exact ⟨by omega, by omega⟩
  · -- total size
    have e1 : ∑ r ∈ Finset.range R, ∑ w ∈ Finset.range W,
        (thread_bound (rank_nstart r nsim R) (rank_nend r nsim R) W (w + 1)
          - thread_bound (rank_nstart r nsim R) (rank_nend r nsim R) W w)
        = ∑ r ∈ Finset.range R,
            (rank_nstart (r + 1) nsim R - rank_nstart r nsim R) := by
      refine Finset.sum_congr rfl ?_
      intro r _
      rw [@sum_window_sizes
        (fun i => thread_bound (rank_nstart r nsim R) (rank_nend r nsim R) W i)
        (hgstep r) W, hgW r, hg0 r, rank_nend_eq]
    rw [e1, @sum_window_sizes (fun i => rank_nstart i nsim R) hfstep R,
      hfR, hf0]
    omega
  · -- the last rank window
    have h1 : rank_nend (R - 1) nsim R = nsim := by
      unfold rank_nend
      have h2 : 1 + (R - 1) = R := by omega
      rw [h2]
      exact Nat.mul_div_cancel_left nsim hR
    refine ⟨h1, ?_⟩
    have hadd := div_add_div_le ((R - 1) * nsim) nsim R
    have hmul : (R - 1) * nsim + nsim = R * nsim := by
      have h2 : R - 1 + 1 = R := by omega
      calc (R - 1) * nsim + nsim = ((R - 1) + 1) * nsim := by
            rw [Nat.succ_mul]
        _ = R * nsim := by rw [h2]
    rw [hmul, Nat.mul_div_cancel_left nsim hR] at hadd
    unfold rank_nstart
    rw [h1]
    omega
  · -- the last worker window of each rank
    intro r hr
    refine ⟨hgW r, ?_⟩
    have hd := div_add_div_le
      ((W - 1) * (rank_nend r nsim R - rank_nstart r nsim R))
      (rank_nend r nsim R - rank_nstart r nsim R) W
    have hmul : (W - 1) * (rank_nend r nsim R - rank_nstart r nsim R)
        + (rank_nend r nsim R - rank_nstart r nsim R)
        = W * (rank_nend r nsim R - rank_nstart r nsim R) := by
      have h2 : W - 1 + 1 = W := by omega
      calc (W - 1) * (rank_nend r nsim R - rank_nstart r nsim R)
            + (rank_nend r nsim R - rank_nstart r nsim R)
          = ((W - 1) + 1) * (rank_nend r nsim R - rank_nstart r nsim R) := by
            rw [Nat.succ_mul]
        _ = W * (rank_nend r nsim R - rank_nstart r nsim R) := by rw [h2]
    rw [hmul, Nat.mul_div_cancel_left _ hW] at hd
    rw [hgW r]
    unfold thread_bound
    have hab' := hab r
    omega

theorem partition_two_level_witness :
    (1 ≤ 3 ∧ 1 ≤ 2) ∧
    (∀ x, x < 10 ↔
      ∃ r, r < 3 ∧ rank_nstart r 10 3 ≤ x ∧ x < rank_nend r 10 3) :=
  ⟨⟨by decide, by decide⟩,
    (partition_two_level 10 3 2 (by decide) (by decide)).2.1⟩

theorem sweepRowGo_length (vars : List Var) (k : ℕ) :
    (sweepRowGo vars k).length = vars.length := by
  induction vars generalizing k with
  | nil => rfl
  | cons v rest ih => simp [sweepRowGo, ih]

theorem sweep_value_closed (vars : List Var) (k j : ℕ) (h : j < vars.length) :
    calibrate_sweep_value vars k j =
      (if 1 < vars[j].nsweeps then
        vars[j].rangemin
          + (((k / prodBefore vars j) % vars[j].nsweeps : ℕ) : ℚ)
            * (vars[j].rangemax - vars[j].rangemin)
            / ((vars[j].nsweeps - 1 : ℕ) : ℚ)
      else vars[j].rangemin) := by
  induction vars generalizing k j with
  | nil => exact absurd h (by simp)
  | cons v rest ih =>
    cases j with
    | zero =>
      simp [calibrate_sweep_value, sweepRowGo, prodBefore]
    | succ n =>
      have h' : n < rest.length := by simpa using h
      have hrec := ih (k / v.nsweeps) n h'
      simp only [calibrate_sweep_value, sweepRowGo, List.getD_cons_succ,
        List.getElem_cons_succ] at hrec ⊢
      rw [hrec]
      have hprod : prodBefore (v :: rest) (n + 1)
          = v.nsweeps * prodBefore rest n := by
        simp [prodBefore]
      rw [hprod, ← Nat.div_div_eq_div_mul]

theorem sweepDigits_getD (radices : List ℕ) (k j : ℕ) (h : j < radices.length) :
    (sweepDigits radices k).getD j 0
      = (k / (radices.take j).prod) % radices[j] := by
  induction radices generalizing k j with
  | nil => exact absurd h (by simp)
  | cons s rest ih =>
    cases j with
    | zero => simp [sweepDigits]
    | succ n =>
      have h' : n < rest.length := by simpa using h
      have hrec := ih (k / s) n h'
      simp only [sweepDigits, List.getD_cons_succ, List.getElem_cons_succ,
        List.take_succ_cons, List.prod_cons] at hrec ⊢
      rw [hrec, Nat.div_div_eq_div_mul]

/-- Claim C3.  Sweep value formula: for every candidate `i` and variable `j`
(with every sweep count at least 1, as on any populated candidate), the
populated `value[i*nvariables+j]` equals the minimum when `nsweeps[j] = 1`,
and otherwise `rangemin[j] + l*(rangemax[j]-rangemin[j])/(nsweeps[j]-1)`
where `l` is the mixed-radix digit of `i` (equal to the digit the
`l = k % nsweeps; k /= nsweeps` loop extracts); the samples are evenly
spaced with inclusive endpoints (`l = 0` gives the minimum and
`l = nsweeps[j]-1` gives the maximum). -/
theorem sweep_value_formula (vars : List Var) (i j : ℕ) (h : j < vars.length)
    (hs : ∀ v ∈ vars, 1 ≤ v.nsweeps) :
    (calibrate_sweep_value vars i j =
      (if vars[j].nsweeps = 1 then vars[j].rangemin
       else vars[j].rangemin
         + (((i / prodBefore vars j) % vars[j].nsweeps : ℕ) : ℚ)
           * (vars[j].rangemax - vars[j].rangemin)
           / ((vars[j].nsweeps - 1 : ℕ) : ℚ))) ∧
    ((sweepDigits (vars.map Var.nsweeps) i).getD j 0
      = (i / prodBefore vars j) % vars[j].nsweeps) ∧
    ((i / prodBefore vars j) % vars[j].nsweeps = 0 →
      calibrate_sweep_value vars i j = vars[j].rangemin) ∧
    (1 < vars[j].nsweeps →
      (i / prodBefore vars j) % vars[j].nsweeps = vars[j].nsweeps - 1 →
      calibrate_sweep_value vars i j = vars[j].rangemax) := by
  have hv : 1 ≤ vars[j].nsweeps := hs _ (vars.getElem_mem h)
  have hclosed := sweep_value_closed vars i j h
  refine ⟨?_, ?_, ?_, ?_⟩
  · rw [hclosed]
    by_cases h1 : vars[j].nsweeps = 1
    · simp [h1]
    · have h2 : 1 < vars[j].nsweeps := by omega
      simp [h1, h2]
  · have hj' : j < (vars.map Var.nsweeps).length := by simpa using h
    rw [sweepDigits_getD (vars.map Var.nsweeps) i j hj']
    have hm : (vars.map Var.nsweeps)[j] = vars[j].nsweeps :=
      List.getElem_map Var.nsweeps
    have ht : ((vars.map Var.nsweeps).take j).prod = prodBefore vars j := by
      rw [← List.map_take]
      rfl
    rw [hm, ht]
  · intro h0
    rw [hclosed]
    by_cases h1 : 1 < vars[j].nsweeps
    · simp [h1, h0]
    · simp [h1]
  · intro h1 hl
    rw [hclosed, if_pos h1, hl]
    have h4 : ((vars[j].nsweeps - 1 : ℕ) : ℚ) = (vars[j].nsweeps : ℚ) - 1 := by
      rw [Nat.cast_sub hv, Nat.cast_one]
    have h6 : 2 ≤ vars[j].nsweeps := by omega
    have h7 : (2 : ℚ) ≤ (vars[j].nsweeps : ℚ) := by exact_mod_cast h6
    have h5 : (vars[j].nsweeps : ℚ) - 1 ≠ 0 := by
      intro h0
      linarith
    rw [h4, mul_comm ((vars[j].nsweeps : ℚ) - 1)
      (vars[j].rangemax - vars[j].rangemin), mul_div_assoc, div_self h5,
      mul_one]
    ring

theorem sweep_value_formula_witness :
    ((0 : ℕ) < ([(⟨0, 10, 11⟩ : Var)]).length
      ∧ ∀ v ∈ [(⟨0, 10, 11⟩ : Var)], 1 ≤ v.nsweeps) ∧
    (sweepDigits (([(⟨0, 10, 11⟩ : Var)]).map Var.nsweeps) 4).getD 0 0
      = (4 / prodBefore [(⟨0, 10, 11⟩ : Var)] 0)
          % (([(⟨0, 10, 11⟩ : Var)])[0]).nsweeps :=
  ⟨⟨by decide, by decide⟩,
    (sweep_value_formula [⟨0, 10, 11⟩] 4 0 (by decide) (by decide)).2.1⟩

/-- Claim C4.  Range invariant of population: under
`rangemin[j] <= rangemax[j]`, every Monte-Carlo value
`rangemin + u*(rangemax-rangemin)` with a uniform draw `u` in `[0,1)` and
every Sweep value lies in `[rangemin[j], rangemax[j]]` (sweep counts at
least 1, as on any populated candidate). -/
theorem population_range_invariant :
    (∀ rangemin rangemax u : ℚ, rangemin ≤ rangemax → 0 ≤ u → u < 1 →
      rangemin ≤ calibrate_MonteCarlo_value rangemin rangemax u ∧
      calibrate_MonteCarlo_value rangemin rangemax u ≤ rangemax) ∧
    (∀ (vars : List Var) (i j : ℕ) (h : j < vars.length),
      (∀ v ∈ vars, v.rangemin ≤ v.rangemax ∧ 1 ≤ v.nsweeps) →
      vars[j].rangemin ≤ calibrate_sweep_value vars i j ∧
      calibrate_sweep_value vars i j ≤ vars[j].rangemax) := by
  constructor
  · intro rangemin rangemax u hr hu0 hu1
    unfold calibrate_MonteCarlo_value
    have hd : (0 : ℚ) ≤ rangemax - rangemin := by linarith
    have h1 : 0 ≤ u * (rangemax - rangemin) := mul_nonneg hu0 hd
    have h2 : u * (rangemax - rangemin) ≤ 1 * (rangemax - rangemin) :=
      mul_le_mul_of_nonneg_right (le_of_lt hu1) hd
    constructor <;> linarith
  · intro vars i j h hvars
    have hr : vars[j].rangemin ≤ vars[j].rangemax :=
      (hvars _ (vars.getElem_mem h)).1
    have hv : 1 ≤ vars[j].nsweeps := (hvars _ (vars.getElem_mem h)).2
    rw [sweep_value_closed vars i j h]
    by_cases h1 : 1 < vars[j].nsweeps
    · rw [if_pos h1]
      have hd : (0 : ℚ) ≤ vars[j].rangemax - vars[j].rangemin := by linarith
      have hlt : (i / prodBefore vars j) % vars[j].nsweeps
          < vars[j].nsweeps := Nat.mod_lt _ (by omega)
      have hle : (i / prodBefore vars j) % vars[j].nsweeps
          ≤ vars[j].nsweeps - 1 := by omega
      have hcast : (((i / prodBefore vars j) % vars[j].nsweeps : ℕ) : ℚ)
          ≤ ((vars[j].nsweeps - 1 : ℕ) : ℚ) := by exact_mod_cast hle
      have hc0 : (0 : ℚ) ≤ (((i / prodBefore vars j) % vars[j].nsweeps : ℕ) : ℚ) :=
        Nat.cast_nonneg _
      have hpos : (0 : ℚ) < ((vars[j].nsweeps - 1 : ℕ) : ℚ) := by
        have h2 : 1 ≤ vars[j].nsweeps - 1 := by omega
        have h3 : (1 : ℚ) ≤ ((vars[j].nsweeps - 1 : ℕ) : ℚ) := by
          exact_mod_cast h2
        linarith
      constructor
      · have hterm : (0 : ℚ)
            ≤ (((i / prodBefore vars j) % vars[j].nsweeps : ℕ) : ℚ)
                * (vars[j].rangemax - vars[j].rangemin)
                / ((vars[j].nsweeps - 1 : ℕ) : ℚ) :=
          div_nonneg (mul_nonneg hc0 hd) (le_of_lt hpos)
        linarith
      · have hterm : (((i / prodBefore vars j) % vars[j].nsweeps : ℕ) : ℚ)
            * (vars[j].rangemax - vars[j].rangemin)
            / ((vars[j].nsweeps - 1 : ℕ) : ℚ)
            ≤ vars[j].rangemax - vars[j].rangemin := by
          rw [div_le_iff₀ hpos]
          calc (((i / prodBefore vars j) % vars[j].nsweeps : ℕ) : ℚ)
                * (vars[j].rangemax - vars[j].rangemin)
              ≤ ((vars[j].nsweeps - 1 : ℕ) : ℚ)
                * (vars[j].rangemax - vars[j].rangemin) :=
                mul_le_mul_of_nonneg_right hcast hd
            _ = (vars[j].rangemax - vars[j].rangemin)
                * ((vars[j].nsweeps - 1 : ℕ) : ℚ) := by ring
        linarith
    · rw [if_neg h1]
      exact ⟨le_refl _, hr⟩

theorem population_range_invariant_witness :
    ((0 : ℚ) ≤ 10 - 0 ∧ (0 : ℚ) ≤ (1 : ℚ) / 2 ∧ (1 : ℚ) / 2 < 1) ∧
    (0 : ℚ) ≤ calibrate_MonteCarlo_value 0 10 (1 / 2) ∧
    calibrate_MonteCarlo_value 0 10 (1 / 2) ≤ 10 :=
  ⟨⟨by norm_num, by norm_num, by norm_num⟩,
    population_range_invariant.1 0 10 (1 / 2) (by norm_num) (by norm_num)
      (by norm_num)⟩

theorem foldl_mul_eq (a : ℕ) (l : List ℕ) : l.foldl (· * ·) a = a * l.prod := by
  induction l generalizing a with
  | nil => simp
  | cons s rest ih =>
    simp only [List.foldl_cons, List.prod_cons, ih]
    ring

theorem sweep_nsimulations_eq (radices : List ℕ) :
    sweep_nsimulations radices = radices.prod := by
  simp [sweep_nsimulations, foldl_mul_eq]

theorem sweepDigits_lt (radices : List ℕ) (i : ℕ) (hi : i < radices.prod) :
    List.Forall₂ (· < ·) (sweepDigits radices i) radices := by
  induction radices generalizing i with
  | nil => exact List.Forall₂.nil
  | cons s rest ih =>
    rw [List.prod_cons] at hi
    have hs : 0 < s := by
      rcases Nat.eq_zero_or_pos s with rfl | hs
      · simp at hi
      · exact hs
    refine List.Forall₂.cons (Nat.mod_lt _ hs) ?_
    apply ih
    rw [Nat.div_lt_iff_lt_mul hs, Nat.mul_comm]
    exact hi

theorem sweepDigits_bij (radices : List ℕ) (t : List ℕ)
    (ht : List.Forall₂ (· < ·) t radices) :
    ∃! i, i < radices.prod ∧ sweepDigits radices i = t := by
  induction ht with
  | nil =>
    refine ⟨0, ⟨by simp, rfl⟩, ?_⟩
    rintro y ⟨hy, _⟩
    simp at hy
    omega
  | @cons a s t' rest h1 h2 ih =>
    obtain ⟨i', ⟨hi', hd'⟩, huniq⟩ := ih
    have hs : 0 < s := by omega
    refine ⟨a + s * i', ⟨?_, ?_⟩, ?_⟩
    · rw [List.prod_cons]
      calc a + s * i' < s + s * i' := by omega
        _ = s * (i' + 1) := by ring
        _ ≤ s * rest.prod := Nat.mul_le_mul_left s hi'
    · simp only [sweepDigits]
      rw [Nat.add_mul_mod_self_left, Nat.mod_eq_of_lt h1,
        Nat.add_mul_div_left _ _ hs, Nat.div_eq_of_lt h1, Nat.zero_add, hd']
    · rintro y ⟨hy, hdy⟩
      simp only [sweepDigits, List.cons.injEq] at hdy
      obtain ⟨hy1, hy2⟩ := hdy
      have hyp : y / s < rest.prod := by
        rw [List.prod_cons] at hy
        rw [Nat.div_lt_iff_lt_mul hs, Nat.mul_comm]
        exact hy
      have heq : y / s = i' := huniq (y / s) ⟨hyp, hy2⟩
      have hrec : y % s + s * (y / s) = y := Nat.mod_add_div y s
      rw [heq, hy1] at hrec
      exact hrec.symm

/-- Claim C9.  Sweep enumeration: `nsimulations` accumulated by
`calibrate_new` equals the product of all sweep counts, and the map from a
candidate index `i` in `[0, nsimulations)` to its mixed-radix digit tuple
(the successive `k % nsweeps[j]`, `k /= nsweeps[j]` extractions) is a
bijection onto the tuples with `0 <= l_j < nsweeps[j]`: every candidate
yields a valid tuple and every valid tuple is produced by exactly one
candidate. -/
theorem sweep_enumeration (radices : List ℕ) :
    sweep_nsimulations radices = radices.prod ∧
    (∀ i, i < sweep_nsimulations radices →
      List.Forall₂ (· < ·) (sweepDigits radices i) radices) ∧
    (∀ t, List.Forall₂ (· < ·) t radices →
      ∃! i, i < sweep_nsimulations radices ∧ sweepDigits radices i = t) := by
  have he := sweep_nsimulations_eq radices
  refine ⟨he, ?_, ?_⟩
  · intro i hi
    rw [he] at hi
    exact sweepDigits_lt radices i hi
  · intro t ht
    rw [he]
    exact sweepDigits_bij radices t ht

theorem sweep_enumeration_witness :
    (5 < sweep_nsimulations [2, 3]) ∧
    List.Forall₂ (· < ·) (sweepDigits [2, 3] 5) [2, 3] :=
  ⟨by decide, (sweep_enumeration [2, 3]).2.1 5 (by decide)⟩

/-- Claim C5 divergence: with 2 ranks, 2 simulations and 1 worker, rank 1's
window is `[1, 2)` but the sequential path of the dispatcher trials
candidates 0 and 1 (the loop of `calibrate_sequential` runs over
`[0, nsimulations)`): candidate 0 lies outside the rank window yet is
run. -/
theorem sequential_window_violation :
    post_population_trials 1 2
        (thread_bound (rank_nstart 1 2 2) (rank_nend 1 2 2) 1) = [0, 1] ∧
    rank_nstart 1 2 2 = 1 ∧ rank_nend 1 2 2 = 2 ∧
    (0 : ℕ) ∈ post_population_trials 1 2
        (thread_bound (rank_nstart 1 2 2) (rank_nend 1 2 2) 1) ∧
    ¬ (rank_nstart 1 2 2 ≤ 0) := by decide

/-- Claim C6 divergence: the `iterations` attribute parses and validates
(the value 2 is accepted), but the coordinator performs exactly one
population/trial phase regardless, never `niterations` of them. -/
theorem iteration_count_divergence :
    parse_niterations (some 2) = some 2 ∧ coordinator_phases 2 = 1 ∧
    coordinator_phases 2 ≠ 2 := by decide

/-- Claim C7 divergence: a result file whose first line does not parse makes
`atof` yield 0, and the candidate with that score enters the Best-K register
(as the current best), instead of scoring +infinity and never entering. -/
theorem trial_failure_divergence :
    calibrate_parse_score none = 0 ∧
    calibrate_best_sequential 1 [] 7 (calibrate_parse_score none) = [(7, 0)] ∧
    calibrate_best_sequential 1 [] 7 (calibrate_parse_score none) ≠ [] := by
  decide

/-- Claim C8 divergence: merging the sorted one-entry root register
`[(0, 2)]` with an empty received list whose stale buffer cells hold
`(7, 1)`, under `nbests = 1`, copies the stale entry: the result `[(7, 1)]`
holds an entry that is in neither register, because the loop's branch reads
`error_best[j]` of the exhausted (here empty) received list. -/
theorem merge_divergence :
    register_entries 1 mergeA = [(0, 2)] ∧
    register_entries 0 mergeB = [] ∧
    calibrate_merge 1 1 0 mergeA mergeB = [(7, 1)] ∧
    ((7 : ℕ), (1 : ℚ)) ∉
      register_entries 1 mergeA ++ register_entries 0 mergeB := by decide

end Calibrator
